import Mathlib

/-!
Shallow embedding of the AI Bill Splitter (`src/pay.py`).

Prices and money amounts are modelled as exact rationals (`ℚ`).  Python
dictionaries keyed by strings are modelled as association lists in insertion
order: lookup and in-place update act on the first matching key, exactly as a
Python `dict` behaves (a `dict` never holds a duplicate key, but the
association-list model keeps the first occurrence authoritative so reachable
states agree).  Python operations that can raise are modelled with `Except`:
`KeyError` for indexing a missing key, `ZeroDivisionError` for division by
zero, `AttributeError` for attribute access on `None`, and `NameError` for
referencing an unbound local.
-/

/-- Python runtime errors that the script can raise. -/
inductive PyError where
  | keyError (key : String)
  | zeroDivisionError
  | attributeError (msg : String)
  | nameError (name : String)
deriving DecidableEq, Repr

/-- One extracted line item (`{"name": ..., "price": ...}`). -/
structure BillItem where
  name : String
  price : ℚ
deriving DecidableEq, Repr

/-- The structured bill (`items`, `subtotal`, `tax`, `tip`, `total`). -/
structure BillRecord where
  items : List BillItem
  subtotal : ℚ
  tax : ℚ
  tip : ℚ
  total : ℚ
deriving DecidableEq, Repr

/-- `d[k]` on a Python dict: first matching key, `KeyError` when absent. -/
def dictGet {α : Type} : List (String × α) → String → Except PyError α
  | [], k => .error (.keyError k)
  | (k2, v) :: rest, k => if k2 = k then .ok v else dictGet rest k

/-- `d[k] = v` on a Python dict: overwrite the existing key in place, or
append a fresh key at the end (insertion order). -/
def dictSetOrInsert {α : Type} : List (String × α) → String → α → List (String × α)
  | [], k, v => [(k, v)]
  | (k2, w) :: rest, k, v =>
    if k2 = k then (k2, v) :: rest else (k2, w) :: dictSetOrInsert rest k v

/-- The key list of a dict, in insertion order. -/
def keys {α : Type} (d : List (String × α)) : List String := d.map Prod.fst

/-- Sum of a cost dict's values. -/
def sumValues (d : List (String × ℚ)) : ℚ := (d.map (fun x => x.2)).sum

/-- `individual_costs = {name: 0 for name in names}` (pay.py line 142). -/
def initCosts (names : List String) : List (String × ℚ) :=
  names.foldl (fun d n => dictSetOrInsert d n 0) []

/-- `individual_costs[name] += c` (pay.py line 148): `KeyError` when `name`
is not a key. -/
def addCost : List (String × ℚ) → String → ℚ → Except PyError (List (String × ℚ))
  | [], p, _ => .error (.keyError p)
  | (k, v) :: rest, p, c =>
    if k = p then .ok ((k, v + c) :: rest)
    else
      match addCost rest p c with
      | .error e => .error e
      | .ok rest2 => .ok ((k, v) :: rest2)

/-- The inner loop `for name in allocated_to: individual_costs[name] +=
cost_per_person` (pay.py lines 147-148). -/
def addItemCosts : List (String × ℚ) → List String → ℚ → Except PyError (List (String × ℚ))
  | costs, [], _ => .ok costs
  | costs, p :: rest, c =>
    match addCost costs p c with
    | .error e => .error e
    | .ok costs2 => addItemCosts costs2 rest c

/-- Handling of one item in the split loop (pay.py lines 144-148):
look up `allocations[item['name']]` (a `KeyError` when the name is not a
key of the allocations dict), skip the item when nobody shares it, and
otherwise add `item['price'] / len(allocated_to)` to every sharer. -/
def processItem (alloc : List (String × List String)) (costs : List (String × ℚ))
    (it : BillItem) : Except PyError (List (String × ℚ)) :=
  match dictGet alloc it.name with
  | .error e => .error e
  | .ok allocated =>
    if allocated.isEmpty then .ok costs
    else addItemCosts costs allocated (it.price / (allocated.length : ℚ))

/-- The outer loop over `edited_bill_data['items']` (pay.py lines 143-148). -/
def processItems (alloc : List (String × List String)) :
    List BillItem → List (String × ℚ) → Except PyError (List (String × ℚ))
  | [], costs => .ok costs
  | it :: rest, costs =>
    match processItem alloc costs it with
    | .error e => .error e
    | .ok costs2 => processItems alloc rest costs2

/-- The individual-cost computation (pay.py lines 141-148). -/
def computeIndividualCosts (items : List BillItem) (alloc : List (String × List String))
    (names : List String) : Except PyError (List (String × ℚ)) :=
  processItems alloc items (initCosts names)

/-- Round to the nearest integer, ties to even, on exact rationals.  This
models the IEEE round-half-even used by `pandas.Series.round`. -/
def roundHalfEven (q : ℚ) : ℤ :=
  if q - ⌊q⌋ < 1 / 2 then ⌊q⌋
  else if (1 : ℚ) / 2 < q - ⌊q⌋ then ⌊q⌋ + 1
  else if ⌊q⌋ % 2 = 0 then ⌊q⌋ else ⌊q⌋ + 1

/-- `x.round(2)`: round to 2 decimal places for display. -/
def round2 (q : ℚ) : ℚ := (roundHalfEven (q * 100) : ℚ) / 100

/-- `results_df['Amount'].round(2)` (pay.py lines 152 and 168): the display
table rounds every amount to 2 decimal places; the stored dict keeps the
unrounded values. -/
def displayCosts (d : List (String × ℚ)) : List (String × ℚ) :=
  d.map (fun x => (x.1, round2 x.2))

/-- The whole split calculation (pay.py lines 141-168): individual costs,
then `tax_and_tip / len(names)` (a `ZeroDivisionError` when `names` is
empty) added evenly to every participant. -/
def computeSplit (bill : BillRecord) (alloc : List (String × List String))
    (names : List String) :
    Except PyError (List (String × ℚ) × List (String × ℚ)) :=
  match computeIndividualCosts bill.items alloc names with
  | .error e => .error e
  | .ok ic =>
    if names.length = 0 then .error .zeroDivisionError
    else
      .ok (ic, ic.map (fun x => (x.1, x.2 + (bill.tax + bill.tip) / (names.length : ℚ))))

/-- Recompute `total` from the other three fields (pay.py lines 111-115). -/
def recomputeTotal (b : BillRecord) : BillRecord :=
  { b with total := b.subtotal + b.tax + b.tip }

/-- One pass of the Step-3 edit widgets (pay.py lines 106-116): the summary
fields take whatever the widgets hold and `total` is recomputed, discarding
whatever `total` held before. -/
def editSummary (b : BillRecord) (newSubtotal newTax newTip : ℚ) : BillRecord :=
  recomputeTotal { b with subtotal := newSubtotal, tax := newTax, tip := newTip }

/-! ## Allocation tracker (pay.py lines 122-134) -/

/-- Update `alloc[item]` in place through `f`; indexing a missing item name
raises `KeyError`, exactly as `st.session_state['allocations'][item]` does. -/
def modifyAlloc : List (String × List String) → String → (List String → List String) →
    Except PyError (List (String × List String))
  | [], i, _ => .error (.keyError i)
  | (k, l) :: rest, i, f =>
    if k = i then .ok ((k, f l) :: rest)
    else
      match modifyAlloc rest i f with
      | .error e => .error e
      | .ok rest2 => .ok ((k, l) :: rest2)

/-- `if name not in alloc[item]: alloc[item].append(name)` (pay.py 130-131). -/
def assignFn (p : String) (l : List String) : List String :=
  if p ∈ l then l else l ++ [p]

/-- `if name in alloc[item]: alloc[item].remove(name)` (pay.py 133-134);
`list.remove` deletes the first occurrence. -/
def unassignFn (p : String) (l : List String) : List String :=
  if p ∈ l then l.erase p else l

/-- The checked-checkbox branch: add participant `p` to item `i`'s sharers. -/
def assign (a : List (String × List String)) (i p : String) :
    Except PyError (List (String × List String)) :=
  modifyAlloc a i (assignFn p)

/-- The unchecked-checkbox branch: remove participant `p` from item `i`'s
sharers. -/
def unassign (a : List (String × List String)) (i p : String) :
    Except PyError (List (String × List String)) :=
  modifyAlloc a i (unassignFn p)

/-- One checkbox sync for the pair `(i, p)` (pay.py 129-134): `checked = true`
runs the assign branch, `checked = false` the unassign branch. -/
def toggle (checked : Bool) (a : List (String × List String)) (i p : String) :
    Except PyError (List (String × List String)) :=
  if checked then assign a i p else unassign a i p

/-- The list-level effect of one checkbox state on one sharer list. -/
def toggleFn (checked : Bool) (p : String) : List String → List String :=
  if checked then assignFn p else unassignFn p

/-- The sharer list an item currently has (empty when the item is unknown);
a convenience view used to state properties. -/
def sharers (a : List (String × List String)) (i : String) : List String :=
  match dictGet a i with
  | .ok l => l
  | .error _ => []

/-! ## Session state and handlers (pay.py lines 82-123) -/

/-- The slice of `st.session_state` the claims are about.  The outer `Option`
is key presence in the session dict; for the bill slots the inner `Option`
is the Python value, which can be `None` when extraction failed. -/
structure Session where
  names : Option (List String)
  originalBillData : Option (Option BillRecord)
  editedBillData : Option (Option BillRecord)
  allocations : Option (List (String × List String))
deriving DecidableEq, Repr

/-- The Analyze-Bill button handler (pay.py 82-88): store the extraction
result under `original_bill_data`, then evaluate `bill_data.copy()`.  When
extraction returned `None` the attribute access raises `AttributeError`
after `original_bill_data` has already been overwritten; the second field of
the result records the raised error, the first the session as the handler
leaves it. -/
def analyzeBillHandler (billData : Option BillRecord) (s : Session) :
    Session × Option PyError :=
  let s1 := { s with originalBillData := some billData }
  match billData with
  | none => (s1, some (.attributeError "NoneType object has no attribute copy"))
  | some b => ({ s1 with editedBillData := some (some b) }, none)

/-- Lazy creation of the allocations dict (pay.py 122-123): built once from
the item names present at that moment, and never rebuilt while the session
key exists. -/
def ensureAllocations (s : Session) (items : List BillItem) : Session :=
  match s.allocations with
  | some _ => s
  | none =>
    { s with allocations := some (items.foldl (fun d it => dictSetOrInsert d it.name []) []) }

/-! ## Extraction adapter (pay.py lines 39-58)

`json.loads` is modelled by a recursive-descent JSON parser over the
character list, with a fuel argument for termination; `re.search` of the
greedy DOTALL pattern for a brace block is modelled by its
characterisation: the match runs from the first opening brace through the
last closing brace of the whole text, and exists iff some closing brace
follows the first opening brace. -/

/-- JSON values as `json.loads` produces them. -/
inductive Json where
  | null
  | bool (b : Bool)
  | num (q : ℚ)
  | str (s : String)
  | arr (elems : List Json)
  | obj (fields : List (String × Json))
deriving Repr

/-- JSON insignificant whitespace. -/
def isWs (c : Char) : Bool :=
  c == ' ' || c == '\n' || c == '\t' || c == '\r'

/-- Drop leading JSON whitespace. -/
def skipWs (s : List Char) : List Char := s.dropWhile isWs

/-- JSON string escapes (the common single-character ones). -/
def escChar (c : Char) : Option Char :=
  if c = '\x22' then some '\x22'
  else if c = '\x5c' then some '\x5c'
  else if c = '/' then some '/'
  else if c = 'n' then some '\n'
  else if c = 't' then some '\t'
  else if c = 'r' then some '\r'
  else if c = 'b' then some (Char.ofNat 8)
  else if c = 'f' then some (Char.ofNat 12)
  else none

/-- Parse the body of a JSON string literal (the opening quote already
consumed), returning the string and the rest of the input. -/
def parseStrAux : List Char → List Char → Option (String × List Char)
  | _, [] => none
  | acc, '\x22' :: rest => some (String.mk acc.reverse, rest)
  | acc, '\x5c' :: c :: rest =>
    match escChar c with
    | some e => parseStrAux (e :: acc) rest
    | none => none
  | acc, c :: rest => parseStrAux (c :: acc) rest

/-- Consume a maximal run of decimal digits, accumulating their value and
count. -/
def takeDigits : Nat → Nat → List Char → Nat × Nat × List Char
  | acc, cnt, [] => (acc, cnt, [])
  | acc, cnt, c :: rest =>
    if c.isDigit then takeDigits (acc * 10 + (c.toNat - 48)) (cnt + 1) rest
    else (acc, cnt, c :: rest)

/-- Apply a JSON exponent suffix to a mantissa. -/
def applyExp (mant : ℚ) (negExp : Bool) (s : List Char) : ℚ × List Char :=
  let (ex, _, r) := takeDigits 0 0 s
  (if negExp then mant / (10 : ℚ) ^ ex else mant * (10 : ℚ) ^ ex, r)

/-- Parse a JSON number (integer part, optional fraction, optional
exponent) into an exact rational. -/
def parseNumber (s : List Char) : Option (ℚ × List Char) :=
  let (neg, s1) :=
    match s with
    | '-' :: r => (true, r)
    | _ => (false, s)
  match s1 with
  | [] => none
  | c :: _ =>
    if c.isDigit then
      let (ip, _, s2) := takeDigits 0 0 s1
      let (mant, s3) :=
        match s2 with
        | '.' :: d :: r =>
          if d.isDigit then
            let (fp, k, r2) := takeDigits 0 0 (d :: r)
            ((ip : ℚ) + (fp : ℚ) / (10 : ℚ) ^ k, r2)
          else ((ip : ℚ), s2)
        | _ => ((ip : ℚ), s2)
      let (q, s4) :=
        match s3 with
        | e :: '+' :: d :: r2 =>
          if (e = 'e' ∨ e = 'E') ∧ d.isDigit then applyExp mant false (d :: r2) else (mant, s3)
        | e :: '-' :: d :: r2 =>
          if (e = 'e' ∨ e = 'E') ∧ d.isDigit then applyExp mant true (d :: r2) else (mant, s3)
        | e :: d :: r2 =>
          if (e = 'e' ∨ e = 'E') ∧ d.isDigit then applyExp mant false (d :: r2) else (mant, s3)
        | _ => (mant, s3)
      some (if neg then -q else q, s4)
    else none

/-- Parser modes: a value, the tail of an array, or the tail of an object
(`first` marks the position right after the opening bracket, where the
closing bracket may follow immediately). -/
inductive PMode where
  | val
  | arrTail (first : Bool) (acc : List Json)
  | objTail (first : Bool) (acc : List (String × Json))

/-- One fuelled step of the recursive-descent JSON parser. -/
def parseStep : Nat → PMode → List Char → Option (Json × List Char)
  | 0, _, _ => none
  | Nat.succ fuel, PMode.val, s =>
    match skipWs s with
    | '\x7b' :: r => parseStep fuel (PMode.objTail true []) r
    | '[' :: r => parseStep fuel (PMode.arrTail true []) r
    | '\x22' :: r =>
      match parseStrAux [] r with
      | some (t, r2) => some (Json.str t, r2)
      | none => none
    | 't' :: 'r' :: 'u' :: 'e' :: r => some (Json.bool true, r)
    | 'f' :: 'a' :: 'l' :: 's' :: 'e' :: r => some (Json.bool false, r)
    | 'n' :: 'u' :: 'l' :: 'l' :: r => some (Json.null, r)
    | c :: r =>
      if c = '-' ∨ c.isDigit then
        match parseNumber (c :: r) with
        | some (q, r2) => some (Json.num q, r2)
        | none => none
      else none
    | [] => none
  | Nat.succ fuel, PMode.arrTail first acc, s =>
    match skipWs s with
    | ']' :: r => if first then some (Json.arr acc, r) else none
    | s2 =>
      match parseStep fuel PMode.val s2 with
      | none => none
      | some (v, r) =>
        match skipWs r with
        | ',' :: r2 => parseStep fuel (PMode.arrTail false (acc ++ [v])) r2
        | ']' :: r2 => some (Json.arr (acc ++ [v]), r2)
        | _ => none
  | Nat.succ fuel, PMode.objTail first acc, s =>
    match skipWs s with
    | '\x7d' :: r => if first then some (Json.obj acc, r) else none
    | '\x22' :: r =>
      match parseStrAux [] r with
      | none => none
      | some (key, r2) =>
        match skipWs r2 with
        | ':' :: r3 =>
          match parseStep fuel PMode.val r3 with
          | none => none
          | some (v, r4) =>
            match skipWs r4 with
            | ',' :: r5 => parseStep fuel (PMode.objTail false (acc ++ [(key, v)])) r5
            | '\x7d' :: r5 => some (Json.obj (acc ++ [(key, v)]), r5)
            | _ => none
        | _ => none
    | _ => none

/-- Strict `json.loads(text)` (pay.py 44): parse one value and require that
only whitespace remains; anything else is a `JSONDecodeError`, modelled as
`none`. -/
def parseJson (text : String) : Option Json :=
  match parseStep (2 * text.length + 4) PMode.val text.data with
  | some (v, rest) => if (skipWs rest).isEmpty then some v else none
  | none => none

/-- The first match of the greedy DOTALL brace-block regex (pay.py 48): it
exists iff some closing brace strictly follows the first opening brace, and
runs from that first opening brace through the last closing brace of the
whole text. -/
def reSearchBraceBlock (s : List Char) : Option (List Char) :=
  let t := s.dropWhile (fun c => c != '\x7b')
  let r := (t.reverse.dropWhile (fun c => c != '\x7d')).reverse
  if r.isEmpty then none else some r

/-- The parsing policy of `get_gemini_response` (pay.py 42-52 plus the
`except` handler): strict parse first, then the regex fallback, and when no
brace block exists or the block fails to parse, an extraction failure
carrying the raw reply text (which the handler displays). -/
def parseReply (reply : String) : Except String Json :=
  match parseJson reply with
  | some j => .ok j
  | none =>
    match reSearchBraceBlock reply.data with
    | some sub =>
      match parseJson (String.mk sub) with
      | some j => .ok j
      | none => .error reply
    | none => .error reply

/-- `get_gemini_response` (pay.py 39-58) as a function of the model call's
outcome.  A raised call (`.error`) reaches the `except` handler with the
local `response` unbound, so `st.code(response.text)` raises `NameError`; a
received reply that cannot be parsed is reported with its raw text and the
function returns `None`; a parsed reply is returned. -/
def get_gemini_response (callResult : Except String String) :
    Except PyError (Option Json) :=
  match callResult with
  | .error _ => .error (.nameError "response")
  | .ok text =>
    match parseReply text with
    | .ok j => .ok (some j)
    | .error _ => .ok none

/-- First-match field lookup in a parsed JSON object. -/
def jsonField : List (String × Json) → String → Option Json
  | [], _ => none
  | (k, v) :: rest, key => if k = key then some v else jsonField rest key

/-- Read one item dict the way pay.py lines 96-102 do (`item['name']`,
`float(item['price'])`). -/
def itemOfJson : Json → Option BillItem
  | Json.obj f =>
    match jsonField f "name", jsonField f "price" with
    | some (Json.str n), some (Json.num p) => some ⟨n, p⟩
    | _, _ => none
  | _ => none

/-- Read a list of item dicts. -/
def itemsOfJson : List Json → Option (List BillItem)
  | [] => some []
  | j :: rest =>
    match itemOfJson j, itemsOfJson rest with
    | some it, some its => some (it :: its)
    | _, _ => none

/-- A number field. -/
def numOfJson : Json → Option ℚ
  | Json.num q => some q
  | _ => none

/-- Read a parsed reply as a `BillRecord` the way `main` indexes
`bill_data` (`['items']`, `['subtotal']`, `['tax']`, `['tip']`,
`['total']`). -/
def billOfJson : Json → Option BillRecord
  | Json.obj f =>
    match jsonField f "items" with
    | some (Json.arr js) =>
      match itemsOfJson js, (jsonField f "subtotal").bind numOfJson,
            (jsonField f "tax").bind numOfJson, (jsonField f "tip").bind numOfJson,
            (jsonField f "total").bind numOfJson with
      | some its, some sub, some tax, some tip, some tot =>
        some { items := its, subtotal := sub, tax := tax, tip := tip, total := tot }
      | _, _, _, _, _ => none
    | _ => none
  | _ => none

/-- The reply of the spec's extraction-fallback test vector. -/
def sampleReply : String :=
  "Here you go: \x7b\x22items\x22:[],\x22subtotal\x22:0,\x22tax\x22:0,\x22tip\x22:0,\x22total\x22:0\x7d thanks!"

/-- The JSON value the fallback parse of `sampleReply` produces. -/
def sampleJson : Json :=
  Json.obj [("items", Json.arr []), ("subtotal", Json.num 0), ("tax", Json.num 0),
    ("tip", Json.num 0), ("total", Json.num 0)]

/-- The concrete input refuting C1's display tolerance: one 0.04 item shared
by ten participants. -/
def cexNames : List String :=
  ["p1", "p2", "p3", "p4", "p5", "p6", "p7", "p8", "p9", "p10"]

/-- The single-item bill of the C1 counterexample. -/
def cexItems : List BillItem := [⟨"Cookie", 1 / 25⟩]

/-- The allocation of the C1 counterexample: everyone shares the cookie. -/
def cexAlloc : List (String × List String) := [("Cookie", cexNames)]

/-- The spec's end-to-end bill (Pizza 20, Soda 4, subtotal 24, tax 2, tip 3). -/
def specBill : BillRecord :=
  { items := [⟨"Pizza", 20⟩, ⟨"Soda", 4⟩], subtotal := 24, tax := 2, tip := 3, total := 29 }

/-- The spec's end-to-end allocation (Pizza shared, Soda for Alice). -/
def specAlloc : List (String × List String) :=
  [("Pizza", ["Alice", "Bob"]), ("Soda", ["Alice"])]

/-- The spec's end-to-end participants. -/
def specNames : List String := ["Alice", "Bob"]

/-- The individual costs of the end-to-end scenario. -/
def specIC : List (String × ℚ) := [("Alice", 14), ("Bob", 10)]

/-- The final costs of the end-to-end scenario (share of tax+tip is 2.50). -/
def specFC : List (String × ℚ) := [("Alice", 33 / 2), ("Bob", 25 / 2)]

/-- A fresh session with nothing stored yet. -/
def emptySession : Session :=
  { names := none, originalBillData := none, editedBillData := none, allocations := none }

/-- A session that already holds an allocations dict keyed by "Pizza". -/
def sessWithAlloc : Session :=
  { names := some ["Alice"], originalBillData := none, editedBillData := none,
    allocations := some [("Pizza", [])] }

/-! ## Dict lemmas -/

theorem keys_cons {α : Type} (k : String) (v : α) (d : List (String × α)) :
    keys ((k, v) :: d) = k :: keys d := rfl

theorem sumValues_cons (k : String) (v : ℚ) (d : List (String × ℚ)) :
    sumValues ((k, v) :: d) = v + sumValues d := by
  simp [sumValues]

theorem dictGet_eq_ok_sharers (i : String) :
    ∀ a : List (String × List String), i ∈ keys a → dictGet a i = .ok (sharers a i) := by
  intro a
  induction a with
  | nil => intro h; simp [keys] at h
  | cons hd tl ih =>
    obtain ⟨k, v⟩ := hd
    intro h
    by_cases hk : k = i
    · simp [dictGet, sharers, hk]
    · have h2 : i ∈ keys tl := by
        rw [keys_cons] at h
        rcases List.mem_cons.mp h with h | h
        · exact absurd h.symm hk
        · exact h
      simp [dictGet, sharers, hk]
      have := ih h2
      simp [sharers] at this ⊢
      rw [this]

theorem dictGet_eq_error (i : String) :
    ∀ a : List (String × List String), i ∉ keys a → dictGet a i = .error (.keyError i) := by
  intro a
  induction a with
  | nil => intro _; rfl
  | cons hd tl ih =>
    obtain ⟨k, v⟩ := hd
    intro h
    rw [keys_cons] at h
    have hk : k ≠ i := fun e => h (by simp [e])
    have h2 : i ∉ keys tl := fun e => h (by simp [e])
    simp [dictGet, hk, ih h2]

theorem dictSetOrInsert_of_not_mem {α : Type} (k : String) (v : α) :
    ∀ d : List (String × α), k ∉ keys d → dictSetOrInsert d k v = d ++ [(k, v)] := by
  intro d
  induction d with
  | nil => intro _; rfl
  | cons hd tl ih =>
    obtain ⟨k2, w⟩ := hd
    intro h
    rw [keys_cons] at h
    have hk : k2 ≠ k := fun e => h (by simp [e])
    have h2 : k ∉ keys tl := fun e => h (by simp [e])
    simp [dictSetOrInsert, hk, ih h2]

/-! ## Split-calculator lemmas -/

theorem addCost_spec (p : String) (c : ℚ) :
    ∀ costs : List (String × ℚ), p ∈ keys costs →
      ∃ costs2, addCost costs p c = .ok costs2 ∧
        keys costs2 = keys costs ∧ sumValues costs2 = sumValues costs + c := by
  intro costs
  induction costs with
  | nil => intro h; simp [keys] at h
  | cons hd tl ih =>
    obtain ⟨k, v⟩ := hd
    intro h
    by_cases hk : k = p
    · refine ⟨(k, v + c) :: tl, by simp [addCost, hk], by simp [keys_cons], ?_⟩
      rw [sumValues_cons, sumValues_cons]
      ring
    · have hp : p ∈ keys tl := by
        rw [keys_cons] at h
        rcases List.mem_cons.mp h with h | h
        · exact absurd h.symm hk
        · exact h
      obtain ⟨tl2, h1, h2, h3⟩ := ih hp
      refine ⟨(k, v) :: tl2, by simp [addCost, hk, h1], by simp [keys_cons, h2], ?_⟩
      rw [sumValues_cons, sumValues_cons, h3]
      ring

theorem addItemCosts_spec (c : ℚ) :
    ∀ (sh : List String) (costs : List (String × ℚ)),
      (∀ p ∈ sh, p ∈ keys costs) →
      ∃ costs2, addItemCosts costs sh c = .ok costs2 ∧
        keys costs2 = keys costs ∧
        sumValues costs2 = sumValues costs + (sh.length : ℚ) * c := by
  intro sh
  induction sh with
  | nil => intro costs _; exact ⟨costs, rfl, rfl, by simp⟩
  | cons p rest ih =>
    intro costs hmem
    obtain ⟨costs2, h1, h2, h3⟩ := addCost_spec p c costs (hmem p (by simp))
    have hmem2 : ∀ q ∈ rest, q ∈ keys costs2 := by
      intro q hq
      rw [h2]
      exact hmem q (by simp [hq])
    obtain ⟨costs3, g1, g2, g3⟩ := ih costs2 hmem2
    refine ⟨costs3, by simp [addItemCosts, h1, g1], by rw [g2, h2], ?_⟩
    rw [g3, h3]
    simp only [List.length_cons]
    push_cast
    ring

theorem processItem_spec (alloc : List (String × List String)) (costs : List (String × ℚ))
    (it : BillItem) (hk : it.name ∈ keys alloc)
    (hne : sharers alloc it.name ≠ [])
    (hsub : ∀ p ∈ sharers alloc it.name, p ∈ keys costs) :
    ∃ costs2, processItem alloc costs it = .ok costs2 ∧
      keys costs2 = keys costs ∧
      sumValues costs2 = sumValues costs + it.price := by
  have hget := dictGet_eq_ok_sharers it.name alloc hk
  obtain ⟨costs2, h1, h2, h3⟩ :=
    addItemCosts_spec (it.price / ((sharers alloc it.name).length : ℚ))
      (sharers alloc it.name) costs hsub
  have hlen : ((sharers alloc it.name).length : ℚ) ≠ 0 := by
    have := List.length_pos.mpr hne
    positivity
  refine ⟨costs2, ?_, h2, ?_⟩
  · simp only [processItem, hget]
    rw [if_neg (by simp [List.isEmpty_iff, hne])]
    exact h1
  · rw [h3, mul_div_cancel₀ _ hlen]

theorem processItems_spec (alloc : List (String × List String)) :
    ∀ (items : List BillItem) (costs : List (String × ℚ)),
      (∀ it ∈ items, it.name ∈ keys alloc ∧ sharers alloc it.name ≠ [] ∧
        ∀ p ∈ sharers alloc it.name, p ∈ keys costs) →
      ∃ costs2, processItems alloc items costs = .ok costs2 ∧
        keys costs2 = keys costs ∧
        sumValues costs2 = sumValues costs + (items.map BillItem.price).sum := by
  intro items
  induction items with
  | nil => intro costs _; exact ⟨costs, rfl, rfl, by simp⟩
  | cons it rest ih =>
    intro costs hyp
    obtain ⟨hk, hne, hsub⟩ := hyp it (by simp)
    obtain ⟨c2, h1, h2, h3⟩ := processItem_spec alloc costs it hk hne hsub
    have hyp2 : ∀ jt ∈ rest, jt.name ∈ keys alloc ∧ sharers alloc jt.name ≠ [] ∧
        ∀ p ∈ sharers alloc jt.name, p ∈ keys c2 := by
      intro jt hjt
      obtain ⟨a1, a2, a3⟩ := hyp jt (by simp [hjt])
      exact ⟨a1, a2, fun p hp => h2 ▸ a3 p hp⟩
    obtain ⟨c3, g1, g2, g3⟩ := ih c2 hyp2
    refine ⟨c3, by simp [processItems, h1, g1], by rw [g2, h2], ?_⟩
    rw [g3, h3]
    simp [List.map_cons, List.sum_cons]
    ring

theorem initCosts_eq_aux (v : ℚ) :
    ∀ (names : List String) (acc : List (String × ℚ)),
      (∀ n ∈ names, n ∉ keys acc) → names.Nodup →
      names.foldl (fun d n => dictSetOrInsert d n v) acc =
        acc ++ names.map (fun n => (n, v)) := by
  intro names
  induction names with
  | nil => intro acc _ _; simp
  | cons n rest ih =>
    intro acc hnot hnd
    have hnotin : n ∉ keys acc := hnot n (by simp)
    have hstep : dictSetOrInsert acc n v = acc ++ [(n, v)] :=
      dictSetOrInsert_of_not_mem n v acc hnotin
    have hnd2 := (List.nodup_cons.mp hnd)
    have hnot2 : ∀ m ∈ rest, m ∉ keys (acc ++ [(n, v)]) := by
      intro m hm
      simp only [keys, List.map_append, List.mem_append]
      rintro (h | h)
      · exact hnot m (by simp [hm]) h
      · simp at h
        exact hnd2.1 (h ▸ hm)
    have := ih (acc ++ [(n, v)]) hnot2 hnd2.2
    simp only [List.foldl_cons, hstep, this, List.map_cons]
    simp

theorem initCosts_eq (names : List String) (h : names.Nodup) :
    initCosts names = names.map (fun n => (n, (0 : ℚ))) := by
  have := initCosts_eq_aux 0 names [] (by simp [keys]) h
  simpa [initCosts] using this

theorem computeIndividualCosts_spec (items : List BillItem)
    (alloc : List (String × List String)) (names : List String)
    (hnd : names.Nodup)
    (hall : ∀ it ∈ items, it.name ∈ keys alloc ∧ sharers alloc it.name ≠ [] ∧
      ∀ p ∈ sharers alloc it.name, p ∈ names) :
    ∃ ic, computeIndividualCosts items alloc names = .ok ic ∧ keys ic = names ∧
      sumValues ic = (items.map BillItem.price).sum := by
  have hinit : initCosts names = names.map (fun n => (n, (0 : ℚ))) := initCosts_eq names hnd
  have hkeys : keys (initCosts names) = names := by
    rw [hinit]
    simp [keys, List.map_map, Function.comp_def]
  have hsum : sumValues (initCosts names) = 0 := by
    rw [hinit]
    simp [sumValues, List.map_map]
    exact List.sum_eq_zero (by simp)
  have hall2 : ∀ it ∈ items, it.name ∈ keys alloc ∧ sharers alloc it.name ≠ [] ∧
      ∀ p ∈ sharers alloc it.name, p ∈ keys (initCosts names) := by
    intro it hit
    obtain ⟨a1, a2, a3⟩ := hall it hit
    refine ⟨a1, a2, fun p hp => ?_⟩
    rw [hkeys]
    exact a3 p hp
  obtain ⟨ic, h1, h2, h3⟩ := processItems_spec alloc items (initCosts names) hall2
  exact ⟨ic, h1, by rw [h2, hkeys], by rw [h3, hsum, zero_add]⟩

/-! ## Rounding lemmas -/

theorem roundHalfEven_err (q : ℚ) : |(roundHalfEven q : ℚ) - q| ≤ 1 / 2 := by
  have hfl : ((⌊q⌋ : ℤ) : ℚ) ≤ q := Int.floor_le q
  have hlt : q < (⌊q⌋ : ℚ) + 1 := Int.lt_floor_add_one q
  rw [roundHalfEven]
  split_ifs with h1 h2 h3
  · rw [abs_le]
    constructor <;> linarith
  · rw [abs_le]
    push_cast
    constructor <;> linarith
  · rw [abs_le]
    constructor <;> linarith
  · rw [abs_le]
    push_cast
    constructor <;> linarith

theorem round2_err (q : ℚ) : |round2 q - q| ≤ 1 / 200 := by
  have h := roundHalfEven_err (q * 100)
  rw [round2]
  have heq : (roundHalfEven (q * 100) : ℚ) / 100 - q =
      ((roundHalfEven (q * 100) : ℚ) - q * 100) / 100 := by ring
  rw [heq, abs_div, abs_of_pos (by norm_num : (0:ℚ) < 100)]
  linarith

theorem sum_round2_err :
    ∀ d : List (String × ℚ),
      |sumValues (displayCosts d) - sumValues d| ≤ (d.length : ℚ) * (1 / 200) := by
  intro d
  induction d with
  | nil => simp [displayCosts, sumValues]
  | cons hd tl ih =>
    obtain ⟨k, v⟩ := hd
    have h1 := round2_err v
    have heq : sumValues (displayCosts ((k, v) :: tl)) - sumValues ((k, v) :: tl)
        = (round2 v - v) + (sumValues (displayCosts tl) - sumValues tl) := by
      simp only [displayCosts, List.map_cons]
      rw [sumValues_cons, sumValues_cons]
      simp only [displayCosts] at *
      ring
    rw [heq]
    have := abs_add (round2 v - v) (sumValues (displayCosts tl) - sumValues tl)
    simp only [displayCosts] at this ⊢
    have hlen : ((((k, v) :: tl).length : ℕ) : ℚ) = (tl.length : ℚ) + 1 := by
      simp [List.length_cons]
    calc |(round2 v - v) + (sumValues (List.map (fun x => (x.1, round2 x.2)) tl) - sumValues tl)|
        ≤ |round2 v - v| + |sumValues (List.map (fun x => (x.1, round2 x.2)) tl) - sumValues tl| :=
          this
      _ ≤ 1 / 200 + (tl.length : ℚ) * (1 / 200) := add_le_add h1 ih
      _ = ((((k, v) :: tl).length : ℕ) : ℚ) * (1 / 200) := by rw [hlen]; ring

/-! ## C1: split conservation -/

/-- C1 (amended): when every item's sharer set is non-empty and contained in
the (duplicate-free) participant list, the split succeeds, its cost dict is
keyed by exactly the participants, the unrounded individual costs sum to
exactly the sum of the item prices, and the display-rounded costs sum to the
item-price total within 0.005 times the number of participants (the claimed
0.01-times-the-number-of-items tolerance is refuted by
`split_conservation_cex`). -/
theorem split_conservation (items : List BillItem) (alloc : List (String × List String))
    (names : List String) (hnd : names.Nodup)
    (hall : ∀ it ∈ items, it.name ∈ keys alloc ∧ sharers alloc it.name ≠ [] ∧
      ∀ p ∈ sharers alloc it.name, p ∈ names) :
    ∃ ic, computeIndividualCosts items alloc names = .ok ic ∧ keys ic = names ∧
      sumValues ic = (items.map BillItem.price).sum ∧
      |sumValues (displayCosts ic) - (items.map BillItem.price).sum| ≤
        (names.length : ℚ) * (1 / 200) := by
  obtain ⟨ic, h1, h2, h3⟩ := computeIndividualCosts_spec items alloc names hnd hall
  refine ⟨ic, h1, h2, h3, ?_⟩
  have hlen : ic.length = names.length := by
    have := congrArg List.length h2
    simpa [keys] using this
  rw [← h3, ← hlen]
  exact sum_round2_err ic

/-- Lookup through a value-map: mapping every value of a dict commutes with
`dictGet`. -/
theorem dictGet_map_value {α β : Type} (f : α → β) :
    ∀ (d : List (String × α)) (k : String),
      dictGet (d.map (fun x => (x.1, f x.2))) k = (dictGet d k).map f := by
  intro d
  induction d with
  | nil => intro k; rfl
  | cons hd tl ih =>
    obtain ⟨k2, v⟩ := hd
    intro k
    by_cases hk : k2 = k
    · simp [dictGet, hk, Except.map]
    · simp [dictGet, hk, ih]

/-- C1 counterexample: with one item of price 0.04 shared by ten
participants each share is 0.004, which rounds to 0.00 for display, so the
displayed amounts sum to 0 while the item prices sum to 0.04 — off by more
than the claimed tolerance of 0.01 times the number of items. -/
theorem split_conservation_cex :
    ∃ ic, computeIndividualCosts cexItems cexAlloc cexNames = .ok ic ∧
      ¬ (|sumValues (displayCosts ic) - (cexItems.map BillItem.price).sum| ≤
        (1 / 100) * (cexItems.length : ℚ)) := by
  refine ⟨[("p1", 1/250), ("p2", 1/250), ("p3", 1/250), ("p4", 1/250), ("p5", 1/250),
    ("p6", 1/250), ("p7", 1/250), ("p8", 1/250), ("p9", 1/250), ("p10", 1/250)], ?_, ?_⟩
  · simp [computeIndividualCosts, processItems, processItem, addItemCosts, addCost, initCosts,
      dictGet, dictSetOrInsert, cexItems, cexAlloc, cexNames]
    norm_num
  · have h0 : round2 (1 / 250) = 0 := by norm_num [round2, roundHalfEven]
    simp only [displayCosts, cexItems, List.map_cons, List.map_nil, h0, sumValues,
      List.sum_cons, List.sum_nil]
    norm_num [abs_le]

/-- C1 witness: the amended conservation theorem applied to the spec's
end-to-end scenario (Pizza 20 shared by Alice and Bob, Soda 4 for Alice). -/
theorem split_conservation_witness :
    ∃ ic, computeIndividualCosts [⟨"Pizza", 20⟩, ⟨"Soda", 4⟩]
        [("Pizza", ["Alice", "Bob"]), ("Soda", ["Alice"])] ["Alice", "Bob"] = .ok ic ∧
      keys ic = ["Alice", "Bob"] ∧
      sumValues ic = (([⟨"Pizza", 20⟩, ⟨"Soda", 4⟩] : List BillItem).map BillItem.price).sum ∧
      |sumValues (displayCosts ic) -
          (([⟨"Pizza", 20⟩, ⟨"Soda", 4⟩] : List BillItem).map BillItem.price).sum| ≤
        ((["Alice", "Bob"] : List String).length : ℚ) * (1 / 200) :=
  split_conservation [⟨"Pizza", 20⟩, ⟨"Soda", 4⟩]
    [("Pizza", ["Alice", "Bob"]), ("Soda", ["Alice"])] ["Alice", "Bob"]
    (by decide)
    (by
      intro it hit
      rcases List.mem_cons.mp hit with h | h
      · subst h
        refine ⟨by decide, by decide, by decide⟩
      · rcases List.mem_cons.mp h with h | h
        · subst h
          refine ⟨by decide, by decide, by decide⟩
        · simp at h)

/-! ## C2: tax-and-tip even split -/

/-- C2: whenever the split calculation succeeds, the participant list was
non-empty, every participant's FinalCost is their IndividualCost plus
`(tax + tip) / |participants|` — the divisor being the length of the full
session participant list — and the displayed table holds those values
rounded to 2 decimal places while the stored ones stay unrounded. -/
theorem tax_tip_even_split (bill : BillRecord) (alloc : List (String × List String))
    (names : List String) (ic fc : List (String × ℚ))
    (h : computeSplit bill alloc names = .ok (ic, fc)) :
    names.length ≠ 0 ∧
    (∀ p q, dictGet ic p = .ok q →
      dictGet fc p = .ok (q + (bill.tax + bill.tip) / (names.length : ℚ))) ∧
    (∀ p q, dictGet fc p = .ok q → dictGet (displayCosts fc) p = .ok (round2 q)) := by
  unfold computeSplit at h
  cases hic : computeIndividualCosts bill.items alloc names with
  | error e =>
    rw [hic] at h
    exact absurd h (by simp)
  | ok ic0 =>
    rw [hic] at h
    by_cases hn : names.length = 0
    · simp [hn] at h
    · simp only [if_neg hn, Except.ok.injEq, Prod.mk.injEq] at h
      obtain ⟨hic2, hfc⟩ := h
      subst hic2
      refine ⟨hn, ?_, ?_⟩
      · intro p q hq
        rw [← hfc]
        have hmap := dictGet_map_value
          (fun v => v + (bill.tax + bill.tip) / (names.length : ℚ)) ic0 p
        exact hmap.trans (by rw [hq]; rfl)
      · intro p q hq
        have hmap := dictGet_map_value round2 fc p
        exact hmap.trans (by rw [hq]; rfl)

/-- C2 witness: the theorem applied to the end-to-end scenario, whose split
succeeds with final costs 16.50 and 12.50. -/
theorem tax_tip_even_split_witness :
    specNames.length ≠ 0 ∧
    (∀ p q, dictGet specIC p = .ok q →
      dictGet specFC p = .ok (q + (specBill.tax + specBill.tip) / (specNames.length : ℚ))) ∧
    (∀ p q, dictGet specFC p = .ok q →
      dictGet (displayCosts specFC) p = .ok (round2 q)) :=
  tax_tip_even_split specBill specAlloc specNames specIC specFC (by
    simp [computeSplit, computeIndividualCosts, processItems, processItem, addItemCosts,
      addCost, initCosts, dictGet, dictSetOrInsert, specBill, specAlloc, specNames, specIC,
      specFC]
    norm_num)

/-! ## C3: unallocated items excluded -/

/-- C3: an item whose sharer set is empty is skipped before any division
takes place — the split loop returns every cost dict unchanged for it, so
the item contributes nothing to any participant and is dropped from the
split rather than spread across all participants. -/
theorem unallocated_item_excluded (alloc : List (String × List String)) (it : BillItem)
    (h : dictGet alloc it.name = .ok []) :
    (∀ costs, processItem alloc costs it = .ok costs) ∧
    (∀ items names, computeIndividualCosts (it :: items) alloc names =
      computeIndividualCosts items alloc names) := by
  constructor
  · intro costs
    simp [processItem, h]
  · intro items names
    simp [computeIndividualCosts, processItems, processItem, h]

/-- C3 witness: a 4.00 Soda with no sharers leaves Alice's cost dict
untouched. -/
theorem unallocated_item_excluded_witness :
    (∀ costs, processItem [("Soda", [])] costs ⟨"Soda", 4⟩ = .ok costs) ∧
    (∀ items names, computeIndividualCosts (⟨"Soda", 4⟩ :: items) [("Soda", [])] names =
      computeIndividualCosts items [("Soda", [])] names) :=
  unallocated_item_excluded [("Soda", [])] ⟨"Soda", 4⟩ rfl

/-! ## C4: total recomputation -/

/-- C4: after any edit of subtotal, tax, or tip, the bill's `total` equals
`subtotal + tax + tip`, whatever `total` held before; in particular editing
to 10.00, 1.00, 2.00 yields 13.00 for every prior record. -/
theorem total_recomputation (b : BillRecord) :
    (∀ sub tax tip : ℚ, (editSummary b sub tax tip).total = sub + tax + tip) ∧
    (editSummary b 10 1 2).total = 13 := by
  constructor
  · intro sub tax tip
    rfl
  · norm_num [editSummary, recomputeTotal]

/-! ## C6: empty participants -/

/-- C6: with an empty participant list the split calculation never produces
a result; at the concrete failing input it raises a raw `ZeroDivisionError`
from `tax_and_tip / len(names)` — not the `EmptyParticipantsError` the spec
prescribes (the spec itself flags the source's division error as a defect
to fix, not replicate). -/
theorem empty_participants_zero_division :
    computeSplit { items := [], subtotal := 0, tax := 2, tip := 3, total := 5 } [] [] =
      .error .zeroDivisionError ∧
    (∀ (bill : BillRecord) (alloc : List (String × List String)),
      ∃ e, computeSplit bill alloc [] = .error e) := by
  constructor
  · rfl
  · intro bill alloc
    unfold computeSplit
    cases hic : computeIndividualCosts bill.items alloc [] with
    | error e => exact ⟨e, rfl⟩
    | ok ic => exact ⟨.zeroDivisionError, by simp⟩

/-! ## Allocation-tracker lemmas -/

theorem modifyAlloc_err (i : String) (f : List String → List String) :
    ∀ a : List (String × List String), i ∉ keys a →
      modifyAlloc a i f = .error (.keyError i) := by
  intro a
  induction a with
  | nil => intro _; rfl
  | cons hd tl ih =>
    obtain ⟨k, l⟩ := hd
    intro h
    rw [keys_cons] at h
    have hk : k ≠ i := fun e => h (by simp [e])
    have h2 : i ∉ keys tl := fun e => h (by simp [e])
    simp [modifyAlloc, hk, ih h2]

theorem modifyAlloc_ok (i : String) (f : List String → List String) :
    ∀ a : List (String × List String), i ∈ keys a →
      ∃ a2, modifyAlloc a i f = .ok a2 := by
  intro a
  induction a with
  | nil => intro h; simp [keys] at h
  | cons hd tl ih =>
    obtain ⟨k, l⟩ := hd
    intro h
    by_cases hk : k = i
    · exact ⟨(k, f l) :: tl, by simp [modifyAlloc, hk]⟩
    · have h2 : i ∈ keys tl := by
        rw [keys_cons] at h
        rcases List.mem_cons.mp h with h | h
        · exact absurd h.symm hk
        · exact h
      obtain ⟨tl2, htl⟩ := ih h2
      exact ⟨(k, l) :: tl2, by simp [modifyAlloc, hk, htl]⟩

theorem modifyAlloc_ok_mem (i : String) (f : List String → List String)
    (a a2 : List (String × List String)) (h : modifyAlloc a i f = .ok a2) :
    i ∈ keys a := by
  by_cases hk : i ∈ keys a
  · exact hk
  · rw [modifyAlloc_err i f a hk] at h
    exact absurd h (by simp)

theorem modifyAlloc_keys (i : String) (f : List String → List String) :
    ∀ a a2 : List (String × List String), modifyAlloc a i f = .ok a2 →
      keys a2 = keys a := by
  intro a
  induction a with
  | nil => intro a2 h; exact absurd h (by simp [modifyAlloc])
  | cons hd tl ih =>
    obtain ⟨k, l⟩ := hd
    intro a2 h
    by_cases hk : k = i
    · rw [modifyAlloc, if_pos hk] at h
      simp only [Except.ok.injEq] at h
      rw [← h, keys_cons, keys_cons]
    · rw [modifyAlloc, if_neg hk] at h
      cases htl : modifyAlloc tl i f with
      | error e => rw [htl] at h; exact absurd h (by simp)
      | ok tl2 =>
        rw [htl] at h
        simp only [Except.ok.injEq] at h
        rw [← h, keys_cons, keys_cons, ih tl2 htl]

theorem sharers_cons_self (k : String) (l : List String)
    (tl : List (String × List String)) : sharers ((k, l) :: tl) k = l := by
  simp [sharers, dictGet]

theorem sharers_cons_other (k j : String) (l : List String)
    (tl : List (String × List String)) (hj : k ≠ j) :
    sharers ((k, l) :: tl) j = sharers tl j := by
  simp [sharers, dictGet, hj]

theorem modifyAlloc_sharers_self (i : String) (f : List String → List String) :
    ∀ a a2 : List (String × List String), modifyAlloc a i f = .ok a2 →
      sharers a2 i = f (sharers a i) := by
  intro a
  induction a with
  | nil => intro a2 h; exact absurd h (by simp [modifyAlloc])
  | cons hd tl ih =>
    obtain ⟨k, l⟩ := hd
    intro a2 h
    by_cases hk : k = i
    · rw [modifyAlloc, if_pos hk] at h
      simp only [Except.ok.injEq] at h
      subst hk
      rw [← h, sharers_cons_self, sharers_cons_self]
    · rw [modifyAlloc, if_neg hk] at h
      cases htl : modifyAlloc tl i f with
      | error e => rw [htl] at h; exact absurd h (by simp)
      | ok tl2 =>
        rw [htl] at h
        simp only [Except.ok.injEq] at h
        rw [← h, sharers_cons_other k i l tl2 hk, sharers_cons_other k i l tl hk,
          ih tl2 htl]

theorem modifyAlloc_sharers_other (i j : String) (f : List String → List String)
    (hj : j ≠ i) :
    ∀ a a2 : List (String × List String), modifyAlloc a i f = .ok a2 →
      sharers a2 j = sharers a j := by
  intro a
  induction a with
  | nil => intro a2 h; exact absurd h (by simp [modifyAlloc])
  | cons hd tl ih =>
    obtain ⟨k, l⟩ := hd
    intro a2 h
    by_cases hk : k = i
    · rw [modifyAlloc, if_pos hk] at h
      simp only [Except.ok.injEq] at h
      have hkj : k ≠ j := fun e => hj (e ▸ hk)
      rw [← h, sharers_cons_other k j (f l) tl hkj, sharers_cons_other k j l tl hkj]
    · rw [modifyAlloc, if_neg hk] at h
      cases htl : modifyAlloc tl i f with
      | error e => rw [htl] at h; exact absurd h (by simp)
      | ok tl2 =>
        rw [htl] at h
        simp only [Except.ok.injEq] at h
        by_cases hkj : k = j
        · rw [← h, hkj, sharers_cons_self, sharers_cons_self]
        · rw [← h, sharers_cons_other k j l tl2 hkj, sharers_cons_other k j l tl hkj,
            ih tl2 htl]

theorem modifyAlloc_fix (i : String) (f : List String → List String) :
    ∀ a a2 : List (String × List String), modifyAlloc a i f = .ok a2 →
      f (sharers a i) = sharers a i → a2 = a := by
  intro a
  induction a with
  | nil => intro a2 h; exact absurd h (by simp [modifyAlloc])
  | cons hd tl ih =>
    obtain ⟨k, l⟩ := hd
    intro a2 h hfix
    by_cases hk : k = i
    · rw [modifyAlloc, if_pos hk] at h
      simp only [Except.ok.injEq] at h
      subst hk
      rw [sharers_cons_self] at hfix
      rw [← h, hfix]
    · rw [modifyAlloc, if_neg hk] at h
      cases htl : modifyAlloc tl i f with
      | error e => rw [htl] at h; exact absurd h (by simp)
      | ok tl2 =>
        rw [htl] at h
        simp only [Except.ok.injEq] at h
        rw [sharers_cons_other k i l tl hk] at hfix
        rw [← h, ih tl2 htl hfix]

theorem modifyAlloc_comp (i : String) (f g : List String → List String) :
    ∀ a a1 a2 : List (String × List String), modifyAlloc a i f = .ok a1 →
      modifyAlloc a1 i g = .ok a2 →
      modifyAlloc a i (fun l => g (f l)) = .ok a2 := by
  intro a
  induction a with
  | nil => intro a1 a2 h; exact absurd h (by simp [modifyAlloc])
  | cons hd tl ih =>
    obtain ⟨k, l⟩ := hd
    intro a1 a2 h1 h2
    by_cases hk : k = i
    · rw [modifyAlloc, if_pos hk] at h1
      simp only [Except.ok.injEq] at h1
      rw [← h1, modifyAlloc, if_pos hk] at h2
      simp only [Except.ok.injEq] at h2
      rw [modifyAlloc, if_pos hk, ← h2]
    · rw [modifyAlloc, if_neg hk] at h1
      cases htl : modifyAlloc tl i f with
      | error e => rw [htl] at h1; exact absurd h1 (by simp)
      | ok tl1 =>
        rw [htl] at h1
        simp only [Except.ok.injEq] at h1
        rw [← h1, modifyAlloc, if_neg hk] at h2
        cases htl2 : modifyAlloc tl1 i g with
        | error e => rw [htl2] at h2; exact absurd h2 (by simp)
        | ok tl2 =>
          rw [htl2] at h2
          simp only [Except.ok.injEq] at h2
          rw [modifyAlloc, if_neg hk, ih tl1 tl2 htl htl2, ← h2]

theorem unassignFn_eq_erase (p : String) (l : List String) :
    unassignFn p l = l.erase p := by
  by_cases h : p ∈ l
  · rw [unassignFn, if_pos h]
  · rw [unassignFn, if_neg h, List.erase_of_not_mem h]

theorem mem_assignFn (p q : String) (l : List String) :
    q ∈ assignFn p l ↔ q ∈ l ∨ q = p := by
  by_cases h : p ∈ l
  · rw [assignFn, if_pos h]
    constructor
    · exact fun hq => Or.inl hq
    · rintro (hq | rfl)
      · exact hq
      · exact h
  · rw [assignFn, if_neg h]
    simp [List.mem_append]

theorem assignFn_unassignFn_comm (p1 p2 : String) (hne : p1 ≠ p2) (l : List String) :
    unassignFn p2 (assignFn p1 l) = assignFn p1 (unassignFn p2 l) := by
  rw [unassignFn_eq_erase, unassignFn_eq_erase]
  by_cases h1 : p1 ∈ l
  · rw [assignFn, if_pos h1, assignFn, if_pos ((List.mem_erase_of_ne hne).mpr h1)]
  · rw [assignFn, if_neg h1]
    have h1e : p1 ∉ l.erase p2 := fun hc => h1 (List.mem_of_mem_erase hc)
    rw [assignFn, if_neg h1e]
    by_cases h2 : p2 ∈ l
    · rw [List.erase_append_left _ h2]
    · have hno : p2 ∉ l ++ [p1] := by
        simp only [List.mem_append, List.mem_singleton]
        rintro (hc | hc)
        · exact h2 hc
        · exact hne hc.symm
      rw [List.erase_of_not_mem hno, List.erase_of_not_mem h2]

theorem toggle_eq_modify (checked : Bool) (a : List (String × List String)) (i p : String) :
    toggle checked a i p = modifyAlloc a i (toggleFn checked p) := by
  cases checked <;> rfl

theorem mem_toggleFn_comm (b1 b2 : Bool) (p1 p2 : String) (hne : p1 ≠ p2)
    (l : List String) (q : String) :
    q ∈ toggleFn b2 p2 (toggleFn b1 p1 l) ↔ q ∈ toggleFn b1 p1 (toggleFn b2 p2 l) := by
  cases b1 <;> cases b2 <;> simp only [toggleFn, if_pos, if_neg, Bool.false_eq_true,
    if_true, if_false]
  · rw [unassignFn_eq_erase, unassignFn_eq_erase, unassignFn_eq_erase, unassignFn_eq_erase,
      List.erase_comm]
  · rw [assignFn_unassignFn_comm p2 p1 (fun e => hne e.symm) l]
  · rw [assignFn_unassignFn_comm p1 p2 hne l]
  · rw [mem_assignFn, mem_assignFn, mem_assignFn, mem_assignFn]
    tauto

/-! ## C7: allocation toggles -/

/-- C7 counterexample: when participant "p" already shares item "x",
assigning and then unassigning does not restore the sharer set to its prior
state — "p" ends up removed. -/
theorem allocation_toggle_cex :
    (assign [("x", ["p"])] "x" "p").bind (fun a => unassign a "x" "p") = .ok [("x", [])] ∧
    "p" ∈ sharers [("x", ["p"])] "x" ∧
    "p" ∉ sharers [("x", ([] : List String))] "x" := by
  refine ⟨rfl, ?_, ?_⟩
  · rw [sharers_cons_self]
    simp
  · rw [sharers_cons_self]
    simp

/-- C7 (amended): assigning twice equals assigning once; unassigning after
assigning restores the allocation provided the participant was not already a
sharer of the item; and toggle operations on distinct (item, participant)
pairs whose items exist in the map commute up to the resulting sharer sets
(same keys, same sharer membership everywhere). -/
theorem allocation_toggle_properties :
    (∀ (a a1 : List (String × List String)) (i p : String),
      assign a i p = .ok a1 → assign a1 i p = .ok a1) ∧
    (∀ (a : List (String × List String)) (i p : String),
      i ∈ keys a → p ∉ sharers a i →
      (assign a i p).bind (fun x => unassign x i p) = .ok a) ∧
    (∀ (b1 b2 : Bool) (a : List (String × List String)) (i1 p1 i2 p2 : String),
      (i1, p1) ≠ (i2, p2) → i1 ∈ keys a → i2 ∈ keys a →
      ∃ A B, (toggle b1 a i1 p1).bind (fun x => toggle b2 x i2 p2) = .ok A ∧
        (toggle b2 a i2 p2).bind (fun x => toggle b1 x i1 p1) = .ok B ∧
        keys A = keys B ∧ ∀ j q : String, q ∈ sharers A j ↔ q ∈ sharers B j) := by
  refine ⟨?_, ?_, ?_⟩
  · intro a a1 i p h
    have hmem : i ∈ keys a := modifyAlloc_ok_mem i (assignFn p) a a1 h
    have hsh : sharers a1 i = assignFn p (sharers a i) :=
      modifyAlloc_sharers_self i (assignFn p) a a1 h
    have hp : p ∈ sharers a1 i := by
      rw [hsh, mem_assignFn]
      exact Or.inr rfl
    have hkeys : keys a1 = keys a := modifyAlloc_keys i (assignFn p) a a1 h
    obtain ⟨a2, h2⟩ := modifyAlloc_ok i (assignFn p) a1 (by rw [hkeys]; exact hmem)
    have hfix : assignFn p (sharers a1 i) = sharers a1 i := by
      rw [assignFn, if_pos hp]
    have ha2 : a2 = a1 := modifyAlloc_fix i (assignFn p) a1 a2 h2 hfix
    unfold assign
    rw [h2, ha2]
  · intro a i p hkey hp
    obtain ⟨a1, h1⟩ := modifyAlloc_ok i (assignFn p) a hkey
    have hkeys1 : keys a1 = keys a := modifyAlloc_keys i (assignFn p) a a1 h1
    obtain ⟨a2, h2⟩ := modifyAlloc_ok i (unassignFn p) a1 (by rw [hkeys1]; exact hkey)
    have hcomp := modifyAlloc_comp i (assignFn p) (unassignFn p) a a1 a2 h1 h2
    have hfix : unassignFn p (assignFn p (sharers a i)) = sharers a i := by
      rw [assignFn, if_neg hp, unassignFn_eq_erase, List.erase_append_right _ hp]
      simp
    have ha2 : a2 = a := modifyAlloc_fix i _ a a2 hcomp hfix
    unfold assign unassign
    rw [h1]
    exact h2.trans (by rw [ha2])
  · intro b1 b2 a i1 p1 i2 p2 hne h1 h2
    obtain ⟨A1, hA1⟩ := modifyAlloc_ok i1 (toggleFn b1 p1) a h1
    have hkA1 : keys A1 = keys a := modifyAlloc_keys _ _ _ _ hA1
    obtain ⟨A, hA⟩ := modifyAlloc_ok i2 (toggleFn b2 p2) A1 (by rw [hkA1]; exact h2)
    have hkA : keys A = keys A1 := modifyAlloc_keys _ _ _ _ hA
    obtain ⟨B1, hB1⟩ := modifyAlloc_ok i2 (toggleFn b2 p2) a h2
    have hkB1 : keys B1 = keys a := modifyAlloc_keys _ _ _ _ hB1
    obtain ⟨B, hB⟩ := modifyAlloc_ok i1 (toggleFn b1 p1) B1 (by rw [hkB1]; exact h1)
    have hkB : keys B = keys B1 := modifyAlloc_keys _ _ _ _ hB
    refine ⟨A, B, ?_, ?_, ?_, ?_⟩
    · rw [toggle_eq_modify, hA1]
      show toggle b2 A1 i2 p2 = .ok A
      rw [toggle_eq_modify]
      exact hA
    · rw [toggle_eq_modify, hB1]
      show toggle b1 B1 i1 p1 = .ok B
      rw [toggle_eq_modify]
      exact hB
    · rw [hkA, hkA1, hkB, hkB1]
    · intro j q
      by_cases hj1 : j = i1
      · by_cases hj2 : j = i2
        · have hii : i1 = i2 := hj1.symm.trans hj2
          have hpp : p1 ≠ p2 := fun hp => hne (by rw [hii, hp])
          rw [hj1, hii]
          have e2 : sharers A i2 = toggleFn b2 p2 (sharers A1 i2) :=
            modifyAlloc_sharers_self i2 _ A1 A hA
          have e1 : sharers A1 i2 = toggleFn b1 p1 (sharers a i2) := by
            rw [← hii]
            exact modifyAlloc_sharers_self i1 _ a A1 hA1
          have e4 : sharers B i2 = toggleFn b1 p1 (sharers B1 i2) := by
            rw [← hii]
            exact modifyAlloc_sharers_self i1 _ B1 B hB
          have e3 : sharers B1 i2 = toggleFn b2 p2 (sharers a i2) :=
            modifyAlloc_sharers_self i2 _ a B1 hB1
          rw [e2, e1, e4, e3]
          exact mem_toggleFn_comm b1 b2 p1 p2 hpp (sharers a i2) q
        · have hii : i1 ≠ i2 := fun e => hj2 (hj1.trans e)
          rw [hj1]
          have e2 : sharers A i1 = sharers A1 i1 :=
            modifyAlloc_sharers_other i2 i1 _ hii A1 A hA
          have e1 : sharers A1 i1 = toggleFn b1 p1 (sharers a i1) :=
            modifyAlloc_sharers_self i1 _ a A1 hA1
          have e4 : sharers B i1 = toggleFn b1 p1 (sharers B1 i1) :=
            modifyAlloc_sharers_self i1 _ B1 B hB
          have e3 : sharers B1 i1 = sharers a i1 :=
            modifyAlloc_sharers_other i2 i1 _ hii a B1 hB1
          rw [e2, e1, e4, e3]
      · by_cases hj2 : j = i2
        · have hii : i2 ≠ i1 := fun e => hj1 (hj2.trans e)
          rw [hj2]
          have e2 : sharers A i2 = toggleFn b2 p2 (sharers A1 i2) :=
            modifyAlloc_sharers_self i2 _ A1 A hA
          have e1 : sharers A1 i2 = sharers a i2 :=
            modifyAlloc_sharers_other i1 i2 _ hii a A1 hA1
          have e4 : sharers B i2 = sharers B1 i2 :=
            modifyAlloc_sharers_other i1 i2 _ hii B1 B hB
          have e3 : sharers B1 i2 = toggleFn b2 p2 (sharers a i2) :=
            modifyAlloc_sharers_self i2 _ a B1 hB1
          rw [e2, e1, e4, e3]
        · have e2 : sharers A j = sharers A1 j :=
            modifyAlloc_sharers_other i2 j _ hj2 A1 A hA
          have e1 : sharers A1 j = sharers a j :=
            modifyAlloc_sharers_other i1 j _ hj1 a A1 hA1
          have e4 : sharers B j = sharers B1 j :=
            modifyAlloc_sharers_other i1 j _ hj1 B1 B hB
          have e3 : sharers B1 j = sharers a j :=
            modifyAlloc_sharers_other i2 j _ hj2 a B1 hB1
          rw [e2, e1, e4, e3]

/-- C7 witness: the three amended toggle properties instantiated at concrete
allocations. -/
theorem allocation_toggle_witness :
    assign [("x", ["q"])] "x" "q" = .ok [("x", ["q"])] ∧
    (assign [("x", ([] : List String))] "x" "q").bind
      (fun a => unassign a "x" "q") = .ok [("x", [])] ∧
    (∃ A B, (toggle true [("x", ([] : List String)), ("y", [])] "x" "q").bind
        (fun t => toggle true t "y" "r") = .ok A ∧
      (toggle true [("x", ([] : List String)), ("y", [])] "y" "r").bind
        (fun t => toggle true t "x" "q") = .ok B ∧
      keys A = keys B ∧ ∀ j q2 : String, q2 ∈ sharers A j ↔ q2 ∈ sharers B j) :=
  ⟨allocation_toggle_properties.1 [("x", ["q"])] [("x", ["q"])] "x" "q" rfl,
   allocation_toggle_properties.2.1 [("x", [])] "x" "q" (by simp [keys])
     (by rw [sharers_cons_self]; simp),
   allocation_toggle_properties.2.2 true true [("x", []), ("y", [])] "x" "q" "y" "r"
     (by simp) (by simp [keys]) (by simp [keys])⟩

/-! ## C5: extraction parsing policy -/

/-- C5: on the spec's test reply, strict parsing fails (the reply is not
bare JSON), the greedy multiline brace-block search finds a substring, that
substring parses, and reading the result as `main` does yields the
empty-items bill; and in general when the brace search finds nothing, or
its match does not parse either, extraction fails carrying the raw reply. -/
theorem extraction_fallback_parsing :
    parseJson sampleReply = none ∧
    (∃ sub, reSearchBraceBlock sampleReply.data = some sub ∧
      parseJson (String.mk sub) = some sampleJson) ∧
    parseReply sampleReply = .ok sampleJson ∧
    billOfJson sampleJson =
      some { items := [], subtotal := 0, tax := 0, tip := 0, total := 0 } ∧
    (∀ reply : String, parseJson reply = none → reSearchBraceBlock reply.data = none →
      parseReply reply = .error reply) ∧
    (∀ (reply : String) (sub : List Char), parseJson reply = none →
      reSearchBraceBlock reply.data = some sub → parseJson (String.mk sub) = none →
      parseReply reply = .error reply) := by
  refine ⟨rfl, ⟨_, rfl, rfl⟩, rfl, rfl, ?_, ?_⟩
  · intro reply hs hr
    simp [parseReply, hs, hr]
  · intro reply sub hs hr hsub
    simp [parseReply, hs, hr, hsub]

/-- C5 witness: a reply with no brace block at all fails with the raw reply
as the error payload. -/
theorem extraction_fallback_parsing_witness :
    parseReply "The image is too blurry to read." = .error "The image is too blurry to read." :=
  extraction_fallback_parsing.2.2.2.2.1 "The image is too blurry to read." rfl rfl

/-! ## C8 and C9: failure paths of the adapter and the Analyze handler -/

/-- C8: whenever a received reply fails to parse, `get_gemini_response`
returns `None`; the Analyze-Bill handler then stores that `None` under
`original_bill_data` and crashes with `AttributeError` on
`bill_data.copy()`, leaving `edited_bill_data` unset — so the session's
bill state is overwritten, not left untouched with only an error shown. -/
theorem extraction_failure_analyze_crash :
    (∀ (text e : String), parseReply text = .error e →
      get_gemini_response (.ok text) = .ok none) ∧
    (∀ s : Session,
      (analyzeBillHandler none s).2 =
        some (.attributeError "NoneType object has no attribute copy") ∧
      (analyzeBillHandler none s).1.originalBillData = some none ∧
      (analyzeBillHandler none s).1.editedBillData = s.editedBillData) := by
  constructor
  · intro text e h
    simp [get_gemini_response, h]
  · intro s
    exact ⟨rfl, rfl, rfl⟩

/-- C8 witness: the crash path at a concrete unparsable reply and the empty
session. -/
theorem extraction_failure_analyze_crash_witness :
    get_gemini_response (.ok "The image is unreadable.") = .ok none ∧
    ((analyzeBillHandler none emptySession).2 =
        some (.attributeError "NoneType object has no attribute copy") ∧
      (analyzeBillHandler none emptySession).1.originalBillData = some none ∧
      (analyzeBillHandler none emptySession).1.editedBillData =
        emptySession.editedBillData) :=
  ⟨extraction_failure_analyze_crash.1 "The image is unreadable."
      "The image is unreadable." rfl,
   extraction_failure_analyze_crash.2 emptySession⟩

/-- C9: when the model call itself raises, the `except` handler references
the unbound local `response` and raises `NameError` (no raw reply text is
shown); and `get_gemini_response` returns `None` exactly when a reply was
received whose text could not be parsed. -/
theorem gemini_call_failure_name_error :
    (∀ msg : String, get_gemini_response (.error msg) = .error (.nameError "response")) ∧
    (∀ c : Except String String, get_gemini_response c = .ok none ↔
      ∃ text, c = .ok text ∧ ∃ e, parseReply text = .error e) := by
  constructor
  · intro msg
    rfl
  · intro c
    constructor
    · intro h
      cases c with
      | error m => exact absurd h (by simp [get_gemini_response])
      | ok text =>
        refine ⟨text, rfl, ?_⟩
        cases hp : parseReply text with
        | ok j => simp [get_gemini_response, hp] at h
        | error e => exact ⟨e, rfl⟩
    · rintro ⟨text, rfl, e, hp⟩
      simp [get_gemini_response, hp]

/-- C9 witness: a concrete failed call raises the `NameError`. -/
theorem gemini_call_failure_name_error_witness :
    get_gemini_response (.error "network unreachable") = .error (.nameError "response") :=
  gemini_call_failure_name_error.1 "network unreachable"

/-! ## C10: allocations map lifecycle and KeyErrors -/

/-- C10: the allocations dict is created only when absent and is never
rebuilt while it exists (neither item renames nor a new analysis touch it —
the Analyze handler leaves the `allocations` slot unchanged); and both the
allocation step and the split calculation index it by the current item
name, raising `KeyError` for a name that is not a key instead of acting as
a no-op. -/
theorem allocations_created_once_key_error :
    (∀ (s : Session) (a : List (String × List String)) (items : List BillItem),
      s.allocations = some a → ensureAllocations s items = s) ∧
    (∀ (bd : Option BillRecord) (s : Session),
      (analyzeBillHandler bd s).1.allocations = s.allocations) ∧
    (∀ (a : List (String × List String)) (i p : String), i ∉ keys a →
      assign a i p = .error (.keyError i) ∧ unassign a i p = .error (.keyError i)) ∧
    (∀ (a : List (String × List String)) (it : BillItem) (rest : List BillItem)
      (names : List String), it.name ∉ keys a →
      computeIndividualCosts (it :: rest) a names = .error (.keyError it.name)) := by
  refine ⟨?_, ?_, ?_, ?_⟩
  · intro s a items h
    simp [ensureAllocations, h]
  · intro bd s
    cases bd <;> rfl
  · intro a i p h
    exact ⟨modifyAlloc_err i _ a h, modifyAlloc_err i _ a h⟩
  · intro a it rest names h
    simp [computeIndividualCosts, processItems, processItem, dictGet_eq_error it.name a h]

/-- C10 witness: the lifecycle and both KeyError paths at concrete inputs
(an allocations dict keyed by "Pizza" while the current item is "Burger"). -/
theorem allocations_created_once_key_error_witness :
    ensureAllocations sessWithAlloc [⟨"Burger", 7⟩] = sessWithAlloc ∧
    (analyzeBillHandler none sessWithAlloc).1.allocations = sessWithAlloc.allocations ∧
    (assign [("Pizza", [])] "Burger" "Alice" = .error (.keyError "Burger") ∧
      unassign [("Pizza", [])] "Burger" "Alice" = .error (.keyError "Burger")) ∧
    computeIndividualCosts [⟨"Burger", 7⟩] [("Pizza", [])] ["Alice"] =
      .error (.keyError "Burger") :=
  ⟨allocations_created_once_key_error.1 sessWithAlloc [("Pizza", [])] [⟨"Burger", 7⟩] rfl,
   allocations_created_once_key_error.2.1 none sessWithAlloc,
   allocations_created_once_key_error.2.2.1 [("Pizza", [])] "Burger" "Alice" (by decide),
   allocations_created_once_key_error.2.2.2 [("Pizza", [])] ⟨"Burger", 7⟩ [] ["Alice"]
     (by decide)⟩
